import Mathlib

/- Shallow embedding of `src/sage/algebras/orlik_terao.py` (class
`OrlikTeraoAlgebra`).  Ground-set elements are modelled as natural numbers
and the base ring as `ℚ` (the doctests use `QQ`; the code divides by
`chi(bc)` over the fraction field, so a field is the faithful choice).
An element of the underlying `CombinatorialFreeModule` is modelled as its
coefficient function `Finset ℕ → ℚ`; since zero coefficients are never
stored, the stored keys of an element are exactly the subsets with nonzero
coefficient.  The chi coefficient `_chi` is computed by the external
linear-algebra layer (matrix/echelon/determinant), so it enters the model
as an opaque coefficient function `Finset ℕ → ℚ`. -/

/-- An algebra element: the coefficient function on basis keys. -/
abbrev El : Type := Finset ℕ → ℚ

/-- `self.monomial(S)`: the one-term element `S ↦ 1`. -/
def monomial (S : Finset ℕ) : El := fun T => if T = S then 1 else 0

/-- Python error values that the construction and `subset_image` can raise. -/
inductive OTError
  /-- the external matroid library rejects an ordering that is not a
  permutation of the ground set (`no_broken_circuits_sets`) -/
  | invalidOrdering
  /-- a `KeyError` from `self._sorting.__getitem__` -/
  | keyError (x : ℕ)
  /-- an `IndexError` from `L[0]` on an empty list -/
  | indexError
  /-- a `ValueError` with the given message -/
  | valueError (msg : String)
deriving DecidableEq

/-- Python's `enumerate` with a start index. -/
def enumFromL (i : ℕ) : List ℕ → List (ℕ × ℕ)
  | [] => []
  | x :: xs => (i, x) :: enumFromL (i + 1) xs

/-- `self._sorting = {x: i for i, x in enumerate(ordering)}` as a lookup:
the index of the last occurrence of `x` in `ordering` (later assignments in
the dict comprehension win), `none` when absent (a `KeyError` on access). -/
def sortingFind (ordering : List ℕ) (x : ℕ) : Option ℕ :=
  (enumFromL 0 ordering).foldl (fun acc p => if p.2 = x then some p.1 else acc) none

/-- The total rank function of a successfully constructed algebra: on every
element that occurs in `ordering` this is `self._sorting[x]`. -/
def rankOf (ordering : List ℕ) (x : ℕ) : ℕ :=
  (sortingFind ordering x).getD 0

/-- Insert `x` into a list sorted ascending by `rank` (helper for the
`sorted(·, key=self._sorting.__getitem__)` calls). -/
def insertR (rank : ℕ → ℕ) (x : ℕ) : List ℕ → List ℕ
  | [] => [x]
  | y :: ys => if rank x < rank y then x :: y :: ys else y :: insertR rank x ys

/-- Sort a list ascending by `rank`. -/
def isortR (rank : ℕ → ℕ) : List ℕ → List ℕ
  | [] => []
  | x :: xs => insertR rank x (isortR rank xs)

/-- A deterministic listing of the elements of a finite set of naturals in
ascending order (Python iterates a frozenset in an arbitrary but fixed
order; any fixed listing is a faithful model). -/
def finsetAsc (s : Finset ℕ) : List ℕ :=
  (List.range (s.sup id + 1)).filter (fun x => decide (x ∈ s))

/-- `sorted(bc, key=self._sorting.__getitem__)` for a frozenset `bc` whose
elements all have ranks. -/
def sortedByRank (rank : ℕ → ℕ) (s : Finset ℕ) : List ℕ :=
  isortR rank (finsetAsc s)

/-- The state of a constructed `OrlikTeraoAlgebra` that the claims are
about: the ground set of the matroid, the broken-circuit dictionary
`self._broken_circuits` (an insertion-ordered association list, the way a
CPython dict iterates), the chi coefficient function `self._chi`, and the
rank function `self._sorting`. -/
structure OTAlgebra where
  ground : Finset ℕ
  brokenCircuits : List (Finset ℕ × ℕ)
  chi : Finset ℕ → ℚ
  sorting : ℕ → ℕ

/-- `S` is an NBC set for the algebra: it contains none of the recorded
broken circuits as a subset. -/
def isNBC (A : OTAlgebra) (S : Finset ℕ) : Prop :=
  ∀ p ∈ A.brokenCircuits, ¬ p.1 ⊆ S

instance (A : OTAlgebra) (S : Finset ℕ) : Decidable (isNBC A S) := by
  unfold isNBC; infer_instance

/-- Well-formedness of the broken-circuit dictionary, true of every index
built by `__init__`: the recorded element of each entry is rank-smaller
than every element of its broken circuit (it was the minimum of the
circuit, and the ranks `self._sorting` assigns are pairwise distinct). -/
def wellFormed (A : OTAlgebra) : Prop :=
  ∀ p ∈ A.brokenCircuits, ∀ j ∈ p.1, A.sorting p.2 < A.sorting j

instance (A : OTAlgebra) : Decidable (wellFormed A) := by
  unfold wellFormed; infer_instance

/-- The inner loop of `subset_image`:
`for ind, j in enumerate(sorted(bc, ...)): coeff = chi(C - j);
 if coeff: r += (-1)^ind * (coeff/lc) * subset_image(Si - j)`.
`rec` is the (fuelled) recursive call; `none` signals fuel exhaustion. -/
def otLoop (chi : Finset ℕ → ℚ) (rec : Finset ℕ → Option El)
    (Si C : Finset ℕ) (lc : ℚ) : List (ℕ × ℕ) → El → Option El
  | [], r => some r
  | (ind, j) :: rest, r =>
    let coeff := chi (C.erase j)
    if coeff = 0 then otLoop chi rec Si C lc rest r
    else
      match rec (Si.erase j) with
      | none => none
      | some v => otLoop chi rec Si C lc rest (r + ((-1 : ℚ) ^ ind * (coeff / lc)) • v)

/-- `subset_image(S)` with explicit fuel: scan `self._broken_circuits` for
the first entry whose key is a subset of `S`; if none, `S` is NBC and the
result is the monomial at `S`; if the recorded element `i` lies in `S`,
return zero; otherwise rewrite through the defining relation.  `none`
signals that the fuel ran out before the recursion finished. -/
def subsetImageF (A : OTAlgebra) (fuel : ℕ) : Finset ℕ → Option El :=
  @Nat.rec (fun _ => Finset ℕ → Option El)
    (fun _ => none)
    (fun _ rec S =>
      match A.brokenCircuits.find? (fun p => decide (p.1 ⊆ S)) with
      | none => some (monomial S)
      | some (bc, i) =>
        if i ∈ S then some 0
        else
          otLoop A.chi rec (insert i S) (insert i bc) (A.chi bc)
            (enumFromL 0 (sortedByRank A.sorting bc)) 0)
    fuel

/-- The termination measure of the rewriting: the sum of the ranks of the
elements of `S`.  Each recursive call replaces some `j ∈ S` by the
rank-smaller element `i ∉ S`, so the measure strictly decreases. -/
def otMeasure (A : OTAlgebra) (S : Finset ℕ) : ℕ :=
  S.sum A.sorting

/-- `subset_image(S)`: the fuelled recursion run with sufficient fuel. -/
def subsetImage (A : OTAlgebra) (S : Finset ℕ) : El :=
  (subsetImageF A (otMeasure A S + 1) S).getD 0

/-- `product_on_basis(a, b)`:
`if not a: return basis()[b]; if not b: return basis()[a];
 if not a.isdisjoint(b): return zero(); return subset_image(b.union(a))`. -/
def productOnBasis (A : OTAlgebra) (a b : Finset ℕ) : El :=
  if a = ∅ then monomial b
  else if b = ∅ then monomial a
  else if a ∩ b ≠ ∅ then 0
  else subsetImage A (b ∪ a)

/-- `algebra_generators()`: the family `x ↦ subset_image(frozenset([x]))`. -/
def algebraGenerators (A : OTAlgebra) (x : ℕ) : El :=
  subsetImage A {x}

/-- `sorted(c, key=self._sorting.__getitem__)` for a circuit `c` inside
`__init__`: raises `KeyError` when some element of `c` is not a key of the
sorting dict (which element Python reports depends on set iteration order;
the model picks the least such element). -/
def sortCircuit (ordering : List ℕ) (c : Finset ℕ) : Except OTError (List ℕ) :=
  match (finsetAsc c).filter (fun x => (sortingFind ordering x).isNone) with
  | [] => Except.ok (isortR (rankOf ordering) (finsetAsc c))
  | x :: _ => Except.error (OTError.keyError x)

/-- Insertion into a CPython dict: an existing key keeps its position and
gets the new value, a fresh key is appended. -/
def dictInsert : List (Finset ℕ × ℕ) → Finset ℕ → ℕ → List (Finset ℕ × ℕ)
  | [], k, v => [(k, v)]
  | (k', v') :: rest, k, v =>
    if k' = k then (k', v) :: rest else (k', v') :: dictInsert rest k v

/-- The `__init__` loop
`for c in circuits: L = sorted(c, key=...); bc[frozenset(L[1:])] = L[0]`,
threaded through an accumulator dict. -/
def buildIndexGo (ordering : List ℕ) (acc : List (Finset ℕ × ℕ)) :
    List (Finset ℕ) → Except OTError (List (Finset ℕ × ℕ))
  | [] => Except.ok acc
  | c :: rest =>
    match sortCircuit ordering c with
    | Except.error e => Except.error e
    | Except.ok [] => Except.error OTError.indexError
    | Except.ok (i :: t) => buildIndexGo ordering (dictInsert acc t.toFinset i) rest

/-- The broken-circuit dictionary built by `__init__` from the matroid's
circuit list. -/
def buildIndex (ordering : List ℕ) (cs : List (Finset ℕ)) :
    Except OTError (List (Finset ℕ × ℕ)) :=
  buildIndexGo ordering [] cs

/-- The construction path of the algebra: `__init__` builds the sorting
dict and the broken-circuit dictionary, then calls
`CombinatorialFreeModule.__init__` with `M.no_broken_circuits_sets(ordering)`.
The validation inside the latter is code of this repository outside `src/`.
Modelled from the spec: `no_broken_circuits_sets` fails when the supplied
ordering is not a permutation of the ground set (`InvalidOrdering`). -/
def orlikTeraoInit (ground : Finset ℕ) (ordering : List ℕ)
    (cs : List (Finset ℕ)) : Except OTError (List (Finset ℕ × ℕ)) :=
  match buildIndex ordering cs with
  | Except.error e => Except.error e
  | Except.ok idx =>
    if ordering.Nodup ∧ ordering.toFinset = ground then Except.ok idx
    else Except.error OTError.invalidOrdering

/-- A Python value passed to `subset_image`: a frozenset, or something
else (a list, a mutable set, ...). -/
inductive PyVal
  | fset (S : Finset ℕ)
  | pylist (l : List ℕ)
  | pyset (l : List ℕ)
deriving DecidableEq

/-- `subset_image` as seen by a caller through the `@cached_method`
decorator (from `sage.misc.cachefunc`, outside `src/`).  Modelled from the
spec: the memo table returns a cached result for a known key, stores the
result for a fresh key, and commits nothing when the call fails.  The body
of `subset_image` itself raises
`ValueError("S needs to be a frozenset")` for a non-frozenset argument
before any computation. -/
def subsetImageMemo (A : OTAlgebra) (memo : List (Finset ℕ × El)) (v : PyVal) :
    Except OTError El × List (Finset ℕ × El) :=
  match v with
  | PyVal.fset S =>
    match memo.find? (fun p => decide (p.1 = S)) with
    | some p => (Except.ok p.2, memo)
    | none => (Except.ok (subsetImage A S), (S, subsetImage A S) :: memo)
  | _ => (Except.error (OTError.valueError "S needs to be a frozenset"), memo)

/-- A concrete algebra instance (used to instantiate hypotheses): the
rank-2 uniform matroid on ground set `{0, 1, 2}` whose only circuit is
`{0, 1, 2}`, natural ordering, so the only broken circuit is `{1, 2}`
with recorded minimal element `0`; chi is constantly `1`. -/
def exAlg : OTAlgebra := ⟨{0, 1, 2}, [({1, 2}, 0)], fun _ => 1, fun x => x⟩

/- ------------------------------------------------------------------ -/
/- Basic lemmas about the list helpers.                               -/
/- ------------------------------------------------------------------ -/

theorem mem_enumFromL {p : ℕ × ℕ} : ∀ {n : ℕ} {l : List ℕ}, p ∈ enumFromL n l → p.2 ∈ l := by
  intro n l
  induction l generalizing n with
  | nil => intro h; cases h
  | cons x xs ih =>
    intro h
    cases h with
    | head => exact List.mem_cons_self _ _
    | tail _ h => exact List.mem_cons_of_mem _ (ih h)

theorem insertR_perm (rank : ℕ → ℕ) (x : ℕ) :
    ∀ l : List ℕ, List.Perm (insertR rank x l) (x :: l) := by
  intro l
  induction l with
  | nil => simp [insertR]
  | cons y ys ih =>
    by_cases h : rank x < rank y
    · simp [insertR, h]
    · simp only [insertR, if_neg h]
      exact List.Perm.trans (List.Perm.cons y ih) (List.Perm.swap x y ys)

theorem isortR_perm (rank : ℕ → ℕ) : ∀ l : List ℕ, List.Perm (isortR rank l) l := by
  intro l
  induction l with
  | nil => simp [isortR]
  | cons x xs ih =>
    exact List.Perm.trans (insertR_perm rank x (isortR rank xs)) (List.Perm.cons x ih)

theorem mem_isortR {rank : ℕ → ℕ} {l : List ℕ} {a : ℕ} :
    a ∈ isortR rank l ↔ a ∈ l :=
  (isortR_perm rank l).mem_iff

theorem mem_finsetAsc {s : Finset ℕ} {a : ℕ} : a ∈ finsetAsc s ↔ a ∈ s := by
  unfold finsetAsc
  rw [List.mem_filter]
  constructor
  · rintro ⟨-, h⟩; exact of_decide_eq_true h
  · intro h
    refine ⟨List.mem_range.mpr ?_, decide_eq_true h⟩
    exact Nat.lt_succ_of_le (Finset.le_sup (f := id) h)

theorem nodup_finsetAsc (s : Finset ℕ) : (finsetAsc s).Nodup :=
  (List.nodup_range _).filter _

theorem mem_sortedByRank {rank : ℕ → ℕ} {s : Finset ℕ} {a : ℕ} :
    a ∈ sortedByRank rank s ↔ a ∈ s := by
  unfold sortedByRank
  rw [mem_isortR, mem_finsetAsc]

/- ------------------------------------------------------------------ -/
/- Unfolding lemmas for the fuelled recursion.                        -/
/- ------------------------------------------------------------------ -/

theorem subsetImageF_zero (A : OTAlgebra) (S : Finset ℕ) :
    subsetImageF A 0 S = none := rfl

theorem subsetImageF_succ_none (A : OTAlgebra) (fuel : ℕ) (S : Finset ℕ)
    (h : A.brokenCircuits.find? (fun p => decide (p.1 ⊆ S)) = none) :
    subsetImageF A (fuel + 1) S = some (monomial S) := by
  show (match A.brokenCircuits.find? (fun p => decide (p.1 ⊆ S)) with
    | none => some (monomial S)
    | some (bc, i) =>
      if i ∈ S then some 0
      else
        otLoop A.chi (subsetImageF A fuel) (insert i S) (insert i bc) (A.chi bc)
          (enumFromL 0 (sortedByRank A.sorting bc)) 0) = some (monomial S)
  rw [h]

theorem subsetImageF_succ_zero (A : OTAlgebra) (fuel : ℕ) (S : Finset ℕ)
    (bc : Finset ℕ) (i : ℕ)
    (h : A.brokenCircuits.find? (fun p => decide (p.1 ⊆ S)) = some (bc, i))
    (hi : i ∈ S) :
    subsetImageF A (fuel + 1) S = some 0 := by
  show (match A.brokenCircuits.find? (fun p => decide (p.1 ⊆ S)) with
    | none => some (monomial S)
    | some (bc, i) =>
      if i ∈ S then some 0
      else
        otLoop A.chi (subsetImageF A fuel) (insert i S) (insert i bc) (A.chi bc)
          (enumFromL 0 (sortedByRank A.sorting bc)) 0) = some 0
  rw [h]
  simp [hi]

theorem subsetImageF_succ_rw (A : OTAlgebra) (fuel : ℕ) (S : Finset ℕ)
    (bc : Finset ℕ) (i : ℕ)
    (h : A.brokenCircuits.find? (fun p => decide (p.1 ⊆ S)) = some (bc, i))
    (hi : i ∉ S) :
    subsetImageF A (fuel + 1) S =
      otLoop A.chi (subsetImageF A fuel) (insert i S) (insert i bc) (A.chi bc)
        (enumFromL 0 (sortedByRank A.sorting bc)) 0 := by
  show (match A.brokenCircuits.find? (fun p => decide (p.1 ⊆ S)) with
    | none => some (monomial S)
    | some (bc, i) =>
      if i ∈ S then some 0
      else
        otLoop A.chi (subsetImageF A fuel) (insert i S) (insert i bc) (A.chi bc)
          (enumFromL 0 (sortedByRank A.sorting bc)) 0) = _
  rw [h]
  simp [hi]

/-- The termination measure strictly decreases along each recursive call:
`S` loses `j` and gains the rank-smaller `i`. -/
theorem otMeasure_lt (A : OTAlgebra) {S : Finset ℕ} {i j : ℕ}
    (hrank : A.sorting i < A.sorting j) (hiS : i ∉ S) (hjS : j ∈ S) :
    otMeasure A ((insert i S).erase j) < otMeasure A S := by
  have hj' : j ∈ insert i S := Finset.mem_insert_of_mem hjS
  have h1 : ((insert i S).erase j).sum A.sorting + A.sorting j
      = (insert i S).sum A.sorting := Finset.sum_erase_add _ _ hj'
  have h2 : (insert i S).sum A.sorting = A.sorting i + S.sum A.sorting :=
    Finset.sum_insert hiS
  unfold otMeasure
  omega

/- ------------------------------------------------------------------ -/
/- Stepping lemmas for the inner loop.                                -/
/- ------------------------------------------------------------------ -/

theorem otLoop_nil (chi : Finset ℕ → ℚ) (rec : Finset ℕ → Option El)
    (Si C : Finset ℕ) (lc : ℚ) (r : El) :
    otLoop chi rec Si C lc [] r = some r := rfl

theorem otLoop_cons_zero (chi : Finset ℕ → ℚ) (rec : Finset ℕ → Option El)
    (Si C : Finset ℕ) (lc : ℚ) (ind j : ℕ) (rest : List (ℕ × ℕ)) (r : El)
    (hc : chi (C.erase j) = 0) :
    otLoop chi rec Si C lc ((ind, j) :: rest) r = otLoop chi rec Si C lc rest r := by
  simp [otLoop, hc]

theorem otLoop_cons_none (chi : Finset ℕ → ℚ) (rec : Finset ℕ → Option El)
    (Si C : Finset ℕ) (lc : ℚ) (ind j : ℕ) (rest : List (ℕ × ℕ)) (r : El)
    (hc : chi (C.erase j) ≠ 0) (h : rec (Si.erase j) = none) :
    otLoop chi rec Si C lc ((ind, j) :: rest) r = none := by
  simp [otLoop, hc, h]

theorem otLoop_cons_some (chi : Finset ℕ → ℚ) (rec : Finset ℕ → Option El)
    (Si C : Finset ℕ) (lc : ℚ) (ind j : ℕ) (rest : List (ℕ × ℕ)) (r : El) (v : El)
    (hc : chi (C.erase j) ≠ 0) (h : rec (Si.erase j) = some v) :
    otLoop chi rec Si C lc ((ind, j) :: rest) r =
      otLoop chi rec Si C lc rest (r + ((-1 : ℚ) ^ ind * (chi (C.erase j) / lc)) • v) := by
  simp [otLoop, hc, h]

/-- Two fuelled recursive calls that agree (and succeed) on every set the
loop touches give the same loop result, and the loop succeeds. -/
theorem otLoop_congr (chi : Finset ℕ → ℚ) (rec₁ rec₂ : Finset ℕ → Option El)
    (Si C : Finset ℕ) (lc : ℚ) :
    ∀ l : List (ℕ × ℕ),
      (∀ p ∈ l, ∃ v, rec₁ (Si.erase p.2) = some v ∧ rec₂ (Si.erase p.2) = some v) →
      ∀ r : El, ∃ out, otLoop chi rec₁ Si C lc l r = some out ∧
        otLoop chi rec₂ Si C lc l r = some out := by
  intro l
  induction l with
  | nil => intro _ r; exact ⟨r, rfl, rfl⟩
  | cons q rest ih =>
    intro h r
    obtain ⟨ind, j⟩ := q
    by_cases hc : chi (C.erase j) = 0
    · obtain ⟨out, h1, h2⟩ := ih (fun p hp => h p (List.mem_cons_of_mem _ hp)) r
      rw [otLoop_cons_zero _ _ _ _ _ _ _ _ _ hc, otLoop_cons_zero _ _ _ _ _ _ _ _ _ hc]
      exact ⟨out, h1, h2⟩
    · obtain ⟨v, hv1, hv2⟩ := h (ind, j) (List.mem_cons_self _ _)
      obtain ⟨out, h1, h2⟩ :=
        ih (fun p hp => h p (List.mem_cons_of_mem _ hp))
          (r + ((-1 : ℚ) ^ ind * (chi (C.erase j) / lc)) • v)
      rw [otLoop_cons_some _ _ _ _ _ _ _ _ _ _ hc hv1,
        otLoop_cons_some _ _ _ _ _ _ _ _ _ _ hc hv2]
      exact ⟨out, h1, h2⟩

/-- Every key with a nonzero coefficient in the loop output was already
nonzero in the accumulator or comes from one of the recursive results. -/
theorem otLoop_support (chi : Finset ℕ → ℚ) (rec : Finset ℕ → Option El)
    (Si C : Finset ℕ) (lc : ℚ) :
    ∀ (l : List (ℕ × ℕ)) (r out : El),
      otLoop chi rec Si C lc l r = some out →
      ∀ T, out T ≠ 0 →
        r T ≠ 0 ∨ ∃ p ∈ l, ∃ v, rec (Si.erase p.2) = some v ∧ v T ≠ 0 := by
  intro l
  induction l with
  | nil =>
    intro r out h T hT
    rw [otLoop_nil] at h
    cases h
    exact Or.inl hT
  | cons q rest ih =>
    intro r out h T hT
    obtain ⟨ind, j⟩ := q
    by_cases hc : chi (C.erase j) = 0
    · rw [otLoop_cons_zero _ _ _ _ _ _ _ _ _ hc] at h
      rcases ih r out h T hT with h' | ⟨p, hp, v, hv, hvT⟩
      · exact Or.inl h'
      · exact Or.inr ⟨p, List.mem_cons_of_mem _ hp, v, hv, hvT⟩
    · cases hv : rec (Si.erase j) with
      | none => rw [otLoop_cons_none _ _ _ _ _ _ _ _ _ hc hv] at h; cases h
      | some v =>
        rw [otLoop_cons_some _ _ _ _ _ _ _ _ _ _ hc hv] at h
        rcases ih _ out h T hT with h' | ⟨p, hp, w, hw, hwT⟩
        · by_cases hrT : r T = 0
          · refine Or.inr ⟨(ind, j), List.mem_cons_self _ _, v, hv, ?_⟩
            intro hvT
            apply h'
            show r T + (((-1 : ℚ) ^ ind * (chi (C.erase j) / lc)) • v) T = 0
            rw [Pi.smul_apply, hvT, smul_zero, hrT, add_zero]
          · exact Or.inl hrT
        · exact Or.inr ⟨p, List.mem_cons_of_mem _ hp, w, hw, hwT⟩

/-- When every recursive call succeeds, the loop computes the accumulator
plus the alternating sum of scaled recursive results (terms with a zero
chi coefficient are omitted, i.e. contribute nothing). -/
theorem otLoop_eq_sum (chi : Finset ℕ → ℚ) (rec : Finset ℕ → Option El)
    (Si C : Finset ℕ) (lc : ℚ) (g : ℕ → El) :
    ∀ l : List (ℕ × ℕ),
      (∀ p ∈ l, rec (Si.erase p.2) = some (g p.2)) →
      ∀ r : El, otLoop chi rec Si C lc l r =
        some (r + (l.map (fun p =>
          if chi (C.erase p.2) = 0 then 0
          else ((-1 : ℚ) ^ p.1 * (chi (C.erase p.2) / lc)) • g p.2)).sum) := by
  intro l
  induction l with
  | nil => intro _ r; rw [otLoop_nil]; simp
  | cons q rest ih =>
    intro h r
    obtain ⟨ind, j⟩ := q
    by_cases hc : chi (C.erase j) = 0
    · rw [otLoop_cons_zero _ _ _ _ _ _ _ _ _ hc,
        ih (fun p hp => h p (List.mem_cons_of_mem _ hp)) r]
      simp [hc]
    · rw [otLoop_cons_some _ _ _ _ _ _ _ _ _ _ hc
        (h (ind, j) (List.mem_cons_self _ _)),
        ih (fun p hp => h p (List.mem_cons_of_mem _ hp)) _]
      simp only [List.map_cons, List.sum_cons, if_neg hc]
      rw [add_assoc]

/- ------------------------------------------------------------------ -/
/- Termination: fuel-stability of the recursion.                      -/
/- ------------------------------------------------------------------ -/

/-- With a well-formed broken-circuit index, the fuelled recursion
succeeds and no longer depends on the fuel once the fuel exceeds the
rank-sum measure of `S`. -/
theorem subsetImageF_stable (A : OTAlgebra) (hwf : wellFormed A) :
    ∀ n : ℕ, ∀ S : Finset ℕ, otMeasure A S < n →
      ∀ f g : ℕ, otMeasure A S < f → otMeasure A S < g →
        subsetImageF A f S = subsetImageF A g S ∧ (subsetImageF A f S).isSome := by
  intro n
  induction n using Nat.strong_induction_on with
  | _ n IH =>
    intro S hn f g hf hg
    obtain ⟨f', rfl⟩ : ∃ f', f = f' + 1 := ⟨f - 1, by omega⟩
    obtain ⟨g', rfl⟩ : ∃ g', g = g' + 1 := ⟨g - 1, by omega⟩
    cases hfind : A.brokenCircuits.find? (fun p => decide (p.1 ⊆ S)) with
    | none =>
      rw [subsetImageF_succ_none A f' S hfind, subsetImageF_succ_none A g' S hfind]
      exact ⟨rfl, rfl⟩
    | some q =>
      obtain ⟨bc, i⟩ := q
      by_cases hi : i ∈ S
      · rw [subsetImageF_succ_zero A f' S bc i hfind hi,
          subsetImageF_succ_zero A g' S bc i hfind hi]
        exact ⟨rfl, rfl⟩
      · rw [subsetImageF_succ_rw A f' S bc i hfind hi,
          subsetImageF_succ_rw A g' S bc i hfind hi]
        have hmem : (bc, i) ∈ A.brokenCircuits := List.mem_of_find?_eq_some hfind
        have hsub : bc ⊆ S := by
          have h' := List.find?_some hfind
          simp only [decide_eq_true_eq] at h'
          exact h'
        have hcall : ∀ p ∈ enumFromL 0 (sortedByRank A.sorting bc),
            ∃ v, subsetImageF A f' ((insert i S).erase p.2) = some v ∧
              subsetImageF A g' ((insert i S).erase p.2) = some v := by
          intro p hp
          have hj : p.2 ∈ bc := mem_sortedByRank.mp (mem_enumFromL hp)
          have hrank : A.sorting i < A.sorting p.2 := hwf (bc, i) hmem p.2 hj
          have hm : otMeasure A ((insert i S).erase p.2) < otMeasure A S :=
            otMeasure_lt A hrank hi (hsub hj)
          obtain ⟨heq, hs⟩ := IH (otMeasure A S) hn ((insert i S).erase p.2) hm f' g'
            (by omega) (by omega)
          obtain ⟨v, hv⟩ := Option.isSome_iff_exists.mp hs
          refine ⟨v, hv, ?_⟩
          rw [← heq]
          exact hv
        obtain ⟨out, h1, h2⟩ := otLoop_congr A.chi (subsetImageF A f') (subsetImageF A g')
          (insert i S) (insert i bc) (A.chi bc) _ hcall 0
        rw [h1, h2]
        exact ⟨rfl, rfl⟩

/-- Any sufficient fuel computes exactly `subset_image(S)`. -/
theorem subsetImageF_eq_subsetImage (A : OTAlgebra) (hwf : wellFormed A)
    (S : Finset ℕ) : ∀ f, otMeasure A S < f →
      subsetImageF A f S = some (subsetImage A S) := by
  intro f hf
  obtain ⟨heq, hs⟩ := subsetImageF_stable A hwf (otMeasure A S + 1) S
    (Nat.lt_succ_self _) f (otMeasure A S + 1) hf (Nat.lt_succ_self _)
  obtain ⟨v, hv⟩ := Option.isSome_iff_exists.mp hs
  unfold subsetImage
  rw [← heq, hv]
  rfl

/- ------------------------------------------------------------------ -/
/- The NBC-closure invariant.                                         -/
/- ------------------------------------------------------------------ -/

/-- Every key with a nonzero coefficient in a successful fuelled run is an
NBC set (no fuel or well-formedness assumptions needed: the base case of
the recursion only emits monomials at sets matching no broken circuit). -/
theorem subsetImageF_keys_nbc (A : OTAlgebra) :
    ∀ (f : ℕ) (S : Finset ℕ) (el : El), subsetImageF A f S = some el →
      ∀ T, el T ≠ 0 → isNBC A T := by
  intro f
  induction f with
  | zero =>
    intro S el h
    rw [subsetImageF_zero] at h
    exact Option.noConfusion h
  | succ f IHf =>
    intro S el h T hT
    cases hfind : A.brokenCircuits.find? (fun p => decide (p.1 ⊆ S)) with
    | none =>
      rw [subsetImageF_succ_none A f S hfind] at h
      have hel : el = monomial S := by
        injection h with h'
        exact h'.symm
      subst hel
      have hTS : T = S := by
        by_contra hne
        apply hT
        show (if T = S then (1 : ℚ) else 0) = 0
        rw [if_neg hne]
      subst hTS
      intro p hp hsub
      have := List.find?_eq_none.mp hfind p hp
      simp only [decide_eq_true_eq] at this
      exact this hsub
    | some q =>
      obtain ⟨bc, i⟩ := q
      by_cases hi : i ∈ S
      · rw [subsetImageF_succ_zero A f S bc i hfind hi] at h
        have hel : el = 0 := by
          injection h with h'
          exact h'.symm
        subst hel
        exact absurd rfl hT
      · rw [subsetImageF_succ_rw A f S bc i hfind hi] at h
        rcases otLoop_support A.chi (subsetImageF A f) (insert i S) (insert i bc)
            (A.chi bc) _ 0 el h T hT with h0 | ⟨p, hp, v, hv, hvT⟩
        · exact absurd rfl h0
        · exact IHf ((insert i S).erase p.2) v hv T hvT

/- ------------------------------------------------------------------ -/
/- Claim theorems.                                                    -/
/- ------------------------------------------------------------------ -/

/-- A set matched by no recorded broken circuit is returned as its own
basis monomial. -/
theorem subsetImage_of_isNBC (A : OTAlgebra) (S : Finset ℕ) (h : isNBC A S) :
    subsetImage A S = monomial S := by
  have hfind : A.brokenCircuits.find? (fun p => decide (p.1 ⊆ S)) = none := by
    rw [List.find?_eq_none]
    intro p hp
    simp only [decide_eq_true_eq]
    exact h p hp
  show (subsetImageF A (otMeasure A S + 1) S).getD 0 = monomial S
  rw [subsetImageF_succ_none A (otMeasure A S) S hfind]
  rfl

/-- C1: for every subset `S` of the ground set, every basis key with a
nonzero coefficient in the element returned by `subset_image(S)` is an
NBC set under the algebra's ordering: no returned key contains any
recorded broken circuit as a subset. -/
theorem otC1 (A : OTAlgebra) (S : Finset ℕ) (hS : S ⊆ A.ground)
    (T : Finset ℕ) (hT : subsetImage A S T ≠ 0) : isNBC A T := by
  unfold subsetImage at hT
  cases h : subsetImageF A (otMeasure A S + 1) S with
  | none =>
    rw [h] at hT
    exact absurd rfl hT
  | some el =>
    rw [h] at hT
    exact subsetImageF_keys_nbc A _ S el h T hT

theorem otC1_witness :
    ({1, 2} : Finset ℕ) ⊆ exAlg.ground ∧ isNBC exAlg {0, 2} :=
  ⟨by decide, otC1 exAlg {1, 2} (by decide) {0, 2} (by with_unfolding_all decide)⟩

/-- C6: `subset_image(S)` terminates for every subset `S` of the (finite)
ground set: for any fuel exceeding the rank-sum measure of `S` the
fuelled recursion completes, with one fixed value, because each recursive
call replaces `S` by `(S ∪ {i}) \ {j}` with `i` order-smaller than `j`. -/
theorem otC6 (A : OTAlgebra) (hwf : wellFormed A) (S : Finset ℕ)
    (hS : S ⊆ A.ground) :
    ∃ el, ∀ f, otMeasure A S < f → subsetImageF A f S = some el :=
  ⟨subsetImage A S, fun f hf => subsetImageF_eq_subsetImage A hwf S f hf⟩

theorem otC6_witness :
    wellFormed exAlg ∧ ({1, 2} : Finset ℕ) ⊆ exAlg.ground ∧
      ∃ el, ∀ f, otMeasure exAlg {1, 2} < f → subsetImageF exAlg f {1, 2} = some el :=
  ⟨by decide, by decide, otC6 exAlg (by decide) {1, 2} (by decide)⟩

/-- C4: when the scan finds a broken circuit `bc ⊆ S` whose recorded
minimal element `i` is not in `S`, `subset_image(S)` is the sum, over the
elements `j` of `bc` in ascending order 0-indexed by `ind`, of
`(-1)^ind * (chi((bc ∪ {i}) \ {j}) / chi(bc)) * subset_image((S ∪ {i}) \ {j})`,
terms with a vanishing chi coefficient being omitted. -/
theorem otC4 (A : OTAlgebra) (hwf : wellFormed A) (S bc : Finset ℕ) (i : ℕ)
    (hfind : A.brokenCircuits.find? (fun p => decide (p.1 ⊆ S)) = some (bc, i))
    (hi : i ∉ S) :
    subsetImage A S =
      ((enumFromL 0 (sortedByRank A.sorting bc)).map (fun p =>
        if A.chi ((insert i bc).erase p.2) = 0 then 0
        else ((-1 : ℚ) ^ p.1 * (A.chi ((insert i bc).erase p.2) / A.chi bc)) •
          subsetImage A ((insert i S).erase p.2))).sum := by
  have hmem : (bc, i) ∈ A.brokenCircuits := List.mem_of_find?_eq_some hfind
  have hsub : bc ⊆ S := by
    have h' := List.find?_some hfind
    simp only [decide_eq_true_eq] at h'
    exact h'
  have hcall : ∀ p ∈ enumFromL 0 (sortedByRank A.sorting bc),
      subsetImageF A (otMeasure A S) ((insert i S).erase p.2) =
        some (subsetImage A ((insert i S).erase p.2)) := by
    intro p hp
    have hj : p.2 ∈ bc := mem_sortedByRank.mp (mem_enumFromL hp)
    have hrank : A.sorting i < A.sorting p.2 := hwf (bc, i) hmem p.2 hj
    have hm : otMeasure A ((insert i S).erase p.2) < otMeasure A S :=
      otMeasure_lt A hrank hi (hsub hj)
    exact subsetImageF_eq_subsetImage A hwf _ _ hm
  have hrun := otLoop_eq_sum A.chi (subsetImageF A (otMeasure A S))
    (insert i S) (insert i bc) (A.chi bc)
    (fun j => subsetImage A ((insert i S).erase j)) _ hcall 0
  have hstep : subsetImage A S = (otLoop A.chi (subsetImageF A (otMeasure A S))
      (insert i S) (insert i bc) (A.chi bc)
      (enumFromL 0 (sortedByRank A.sorting bc)) 0).getD 0 := by
    show (subsetImageF A (otMeasure A S + 1) S).getD 0 = _
    rw [subsetImageF_succ_rw A (otMeasure A S) S bc i hfind hi]
  rw [hstep, hrun, Option.getD_some, zero_add]

theorem otC4_witness :
    wellFormed exAlg ∧ (0 : ℕ) ∉ ({1, 2} : Finset ℕ) ∧
      subsetImage exAlg {1, 2} =
        ((enumFromL 0 (sortedByRank exAlg.sorting {1, 2})).map (fun p =>
          if exAlg.chi ((insert 0 ({1, 2} : Finset ℕ)).erase p.2) = 0 then 0
          else ((-1 : ℚ) ^ p.1 *
              (exAlg.chi ((insert 0 ({1, 2} : Finset ℕ)).erase p.2) / exAlg.chi {1, 2})) •
            subsetImage exAlg ((insert 0 ({1, 2} : Finset ℕ)).erase p.2))).sum :=
  ⟨by decide, by decide,
    otC4 exAlg (by decide) {1, 2} {1, 2} 0 (by with_unfolding_all rfl) (by decide)⟩

/-- C3 (amended): `subset_image(∅)` is the one-term element `∅ ↦ 1`
whenever no recorded broken circuit is empty — i.e. for loop-free
matroids.  (With a loop the empty set is a broken circuit and the result
is the zero element instead; see the counterexample.) -/
theorem otC3 (A : OTAlgebra) (h : ∀ p ∈ A.brokenCircuits, p.1 ≠ ∅) :
    subsetImage A ∅ = monomial ∅ := by
  apply subsetImage_of_isNBC
  intro p hp hsub
  exact h p hp (Finset.subset_empty.mp hsub)

theorem otC3_witness :
    (∀ p ∈ exAlg.brokenCircuits, p.1 ≠ ∅) ∧ subsetImage exAlg ∅ = monomial ∅ :=
  ⟨by decide, otC3 exAlg (by decide)⟩

/-- C3 fails as stated for a matroid with a loop: build the index for the
matroid on `{0, 1}` whose circuit list is `[{0}]` (so `0` is a loop); the
broken-circuit dictionary is `[(∅, 0)]`, and `subset_image(∅)` assigns
coefficient `0` (not `1`) to the key `∅`, i.e. it is the zero element,
not the unit. -/
theorem otC3_counterexample :
    buildIndex [0, 1] [{0}] = Except.ok [(∅, 0)] ∧
      subsetImage ⟨{0, 1}, [(∅, 0)], fun _ => 1, rankOf [0, 1]⟩ ∅ ∅ = 0 ∧
      monomial ∅ ∅ = (1 : ℚ) ∧ (0 : ℚ) ≠ 1 :=
  ⟨by with_unfolding_all rfl, by with_unfolding_all decide,
    by with_unfolding_all decide, by with_unfolding_all decide⟩

/-- C5: for NBC basis indices `a`, `b`: an empty factor gives the other
basis element; intersecting non-empty factors give exactly zero; disjoint
factors give `subset_image(a ∪ b)`. -/
theorem otC5 (A : OTAlgebra) (a b : Finset ℕ) (ha : isNBC A a) (hb : isNBC A b) :
    (a = ∅ → productOnBasis A a b = monomial b) ∧
    (b = ∅ → productOnBasis A a b = monomial a) ∧
    (a ≠ ∅ → b ≠ ∅ → a ∩ b ≠ ∅ → productOnBasis A a b = 0) ∧
    (a ∩ b = ∅ → productOnBasis A a b = subsetImage A (a ∪ b)) := by
  refine ⟨?_, ?_, ?_, ?_⟩
  · intro h
    subst h
    simp [productOnBasis]
  · intro h
    subst h
    by_cases ha' : a = ∅
    · subst ha'
      simp [productOnBasis]
    · simp [productOnBasis, ha']
  · intro ha' hb' hint
    simp [productOnBasis, ha', hb', hint]
  · intro hdisj
    by_cases ha' : a = ∅
    · subst ha'
      rw [Finset.empty_union, subsetImage_of_isNBC A b hb]
      simp [productOnBasis]
    · by_cases hb' : b = ∅
      · subst hb'
        have h1 : productOnBasis A a ∅ = monomial a := by
          simp [productOnBasis, ha']
        rw [h1, Finset.union_empty, subsetImage_of_isNBC A a ha]
      · simp only [productOnBasis, if_neg ha', if_neg hb']
        rw [if_neg (fun hC => hC hdisj), Finset.union_comm b a]

theorem otC5_witness :
    isNBC exAlg {1} ∧ isNBC exAlg {2} ∧
      (({1} : Finset ℕ) ∩ {2} = ∅ →
        productOnBasis exAlg {1} {2} = subsetImage exAlg ({1} ∪ {2})) :=
  ⟨by decide, by decide, (otC5 exAlg {1} {2} (by decide) (by decide)).2.2.2⟩

/-- C9: `product_on_basis` is commutative in its two basis indices: the
emptiness checks, the disjointness test and the union are all symmetric. -/
theorem otC9 (A : OTAlgebra) (a b : Finset ℕ) :
    productOnBasis A a b = productOnBasis A b a := by
  unfold productOnBasis
  by_cases ha : a = ∅
  · subst ha
    by_cases hb : b = ∅
    · subst hb
      simp
    · simp [hb]
  · by_cases hb : b = ∅
    · subst hb
      simp [ha]
    · simp only [if_neg ha, if_neg hb]
      rw [Finset.inter_comm a b, Finset.union_comm b a]

/- ------------------------------------------------------------------ -/
/- Lemmas about the construction of the broken-circuit dictionary.    -/
/- ------------------------------------------------------------------ -/

theorem sortCircuit_ok_mem (ordering : List ℕ) (c : Finset ℕ) (L : List ℕ)
    (h : sortCircuit ordering c = Except.ok L) : ∀ a, a ∈ L ↔ a ∈ c := by
  unfold sortCircuit at h
  split at h
  · injection h with h'
    subst h'
    intro a
    rw [mem_isortR, mem_finsetAsc]
  · exact Except.noConfusion h

theorem sortCircuit_ok_nodup (ordering : List ℕ) (c : Finset ℕ) (L : List ℕ)
    (h : sortCircuit ordering c = Except.ok L) : L.Nodup := by
  unfold sortCircuit at h
  split at h
  · injection h with h'
    subst h'
    exact ((isortR_perm _ _).nodup_iff).mpr (nodup_finsetAsc c)
  · exact Except.noConfusion h

theorem sortCircuit_error (ordering : List ℕ) (c : Finset ℕ) (e : OTError)
    (h : sortCircuit ordering c = Except.error e) : ∃ x, e = OTError.keyError x := by
  unfold sortCircuit at h
  split at h
  · exact Except.noConfusion h
  · injection h with h'
    exact ⟨_, h'.symm⟩

theorem sortCircuit_ok_nil (ordering : List ℕ) (c : Finset ℕ)
    (h : sortCircuit ordering c = Except.ok []) : c = ∅ := by
  have hm := sortCircuit_ok_mem ordering c [] h
  refine Finset.eq_empty_iff_forall_not_mem.mpr (fun a ha => ?_)
  exact (List.not_mem_nil a) ((hm a).mpr ha)

theorem sortCircuit_ok_singleton (ordering : List ℕ) (x : ℕ) (L : List ℕ)
    (h : sortCircuit ordering {x} = Except.ok L) : L = [x] := by
  have hm := sortCircuit_ok_mem ordering {x} L h
  have hn := sortCircuit_ok_nodup ordering {x} L h
  cases L with
  | nil => exact absurd ((hm x).mpr (Finset.mem_singleton_self x)) (List.not_mem_nil x)
  | cons a t =>
    have ha : a = x := Finset.mem_singleton.mp ((hm a).mp (List.mem_cons_self a t))
    subst ha
    cases t with
    | nil => rfl
    | cons b u =>
      have hb : b = a :=
        Finset.mem_singleton.mp ((hm b).mp (List.mem_cons_of_mem _ (List.mem_cons_self b u)))
      subst hb
      simp at hn

theorem mem_dictInsert {k : Finset ℕ} {v : ℕ} {q : Finset ℕ × ℕ} :
    ∀ {d : List (Finset ℕ × ℕ)}, q ∈ dictInsert d k v → q ∈ d ∨ q = (k, v) := by
  intro d
  induction d with
  | nil =>
    intro h
    simp [dictInsert] at h
    exact Or.inr h
  | cons p rest ih =>
    intro h
    obtain ⟨k', v'⟩ := p
    by_cases hk : k' = k
    · simp only [dictInsert, if_pos hk] at h
      cases h with
      | head => exact Or.inr (by rw [hk])
      | tail _ h' => exact Or.inl (List.mem_cons_of_mem _ h')
    · simp only [dictInsert, if_neg hk] at h
      cases h with
      | head => exact Or.inl (List.mem_cons_self _ _)
      | tail _ h' =>
        rcases ih h' with h'' | h''
        · exact Or.inl (List.mem_cons_of_mem _ h'')
        · exact Or.inr h''

theorem mem_keys_dictInsert_of_mem {k : Finset ℕ} {v : ℕ} {k₀ : Finset ℕ} :
    ∀ {d : List (Finset ℕ × ℕ)}, k₀ ∈ d.map Prod.fst →
      k₀ ∈ (dictInsert d k v).map Prod.fst := by
  intro d
  induction d with
  | nil => intro h; cases h
  | cons p rest ih =>
    intro h
    obtain ⟨k', v'⟩ := p
    by_cases hk : k' = k
    · simpa [dictInsert, if_pos hk] using h
    · rcases List.mem_cons.mp h with h' | h'
      · simp [dictInsert, if_neg hk, h']
      · simp only [dictInsert, if_neg hk, List.map_cons, List.mem_cons]
        exact Or.inr (ih h')

theorem self_mem_keys_dictInsert (k : Finset ℕ) (v : ℕ) :
    ∀ d : List (Finset ℕ × ℕ), k ∈ (dictInsert d k v).map Prod.fst := by
  intro d
  induction d with
  | nil => simp [dictInsert]
  | cons p rest ih =>
    obtain ⟨k', v'⟩ := p
    by_cases hk : k' = k
    · simp [dictInsert, if_pos hk, hk]
    · simp only [dictInsert, if_neg hk, List.map_cons, List.mem_cons]
      exact Or.inr ih

theorem buildIndexGo_keys (ordering : List ℕ) :
    ∀ (cs : List (Finset ℕ)) (acc idx : List (Finset ℕ × ℕ)),
      buildIndexGo ordering acc cs = Except.ok idx →
      ∀ k₀ : Finset ℕ, k₀ ∈ acc.map Prod.fst → k₀ ∈ idx.map Prod.fst := by
  intro cs
  induction cs with
  | nil =>
    intro acc idx h k₀ hk
    injection h with h'
    subst h'
    exact hk
  | cons c rest ih =>
    intro acc idx h k₀ hk
    unfold buildIndexGo at h
    split at h
    · exact Except.noConfusion h
    · exact Except.noConfusion h
    · exact ih _ idx h k₀ (mem_keys_dictInsert_of_mem hk)

theorem buildIndexGo_mem (ordering : List ℕ) :
    ∀ (cs : List (Finset ℕ)) (acc idx : List (Finset ℕ × ℕ)),
      buildIndexGo ordering acc cs = Except.ok idx →
      ∀ q ∈ idx, q ∈ acc ∨
        ∃ c ∈ cs, ∃ i t, sortCircuit ordering c = Except.ok (i :: t) ∧
          q = (t.toFinset, i) := by
  intro cs
  induction cs with
  | nil =>
    intro acc idx h q hq
    injection h with h'
    subst h'
    exact Or.inl hq
  | cons c rest ih =>
    intro acc idx h q hq
    unfold buildIndexGo at h
    split at h
    · exact Except.noConfusion h
    · exact Except.noConfusion h
    · rename_i i t hsort
      rcases ih _ idx h q hq with h' | ⟨c', hc', i', t', hs', hq'⟩
      · rcases mem_dictInsert h' with h'' | h''
        · exact Or.inl h''
        · exact Or.inr ⟨c, List.mem_cons_self _ _, i, t, hsort, h''⟩
      · exact Or.inr ⟨c', List.mem_cons_of_mem _ hc', i', t', hs', hq'⟩

theorem buildIndexGo_emptykey (ordering : List ℕ) (x : ℕ) :
    ∀ (cs : List (Finset ℕ)) (acc idx : List (Finset ℕ × ℕ)),
      buildIndexGo ordering acc cs = Except.ok idx →
      ({x} : Finset ℕ) ∈ cs → (∅ : Finset ℕ) ∈ idx.map Prod.fst := by
  intro cs
  induction cs with
  | nil => intro acc idx h hx; cases hx
  | cons c rest ih =>
    intro acc idx h hx
    unfold buildIndexGo at h
    split at h
    · exact Except.noConfusion h
    · exact Except.noConfusion h
    · rename_i i t hsort
      rcases List.mem_cons.mp hx with hcx | hcx
      · subst hcx
        have hL : i :: t = [x] := sortCircuit_ok_singleton ordering x (i :: t) hsort
        injection hL with h1 h2
        subst h2
        have : (∅ : Finset ℕ) ∈ (dictInsert acc ([] : List ℕ).toFinset i).map Prod.fst := by
          simpa using self_mem_keys_dictInsert (([] : List ℕ).toFinset) i acc
        exact buildIndexGo_keys ordering rest _ idx h ∅ (by simpa using this)
      · exact ih _ idx h hcx

theorem buildIndexGo_error (ordering : List ℕ) :
    ∀ (cs : List (Finset ℕ)), (∀ c ∈ cs, c ≠ ∅) →
      ∀ (acc : List (Finset ℕ × ℕ)) (e : OTError),
        buildIndexGo ordering acc cs = Except.error e →
        ∃ x, e = OTError.keyError x := by
  intro cs
  induction cs with
  | nil => intro _ acc e h; exact Except.noConfusion h
  | cons c rest ih =>
    intro hne acc e h
    unfold buildIndexGo at h
    split at h
    · rename_i e' hsort
      injection h with h'
      subst h'
      exact sortCircuit_error ordering c _ hsort
    · rename_i hsort
      exact absurd (sortCircuit_ok_nil ordering c hsort) (hne c (List.mem_cons_self _ _))
    · exact ih (fun c' hc' => hne c' (List.mem_cons_of_mem _ hc')) _ e h

/-- C7 (amended): constructing the algebra with an ordering that is not a
permutation of the ground set fails at construction — with the
`InvalidOrdering` rejection of the ordering validation, or with a
`KeyError` when some circuit element is missing from the ordering — and
no algebra object is produced.  (Circuits of a matroid are nonempty.) -/
theorem otC7 (ground : Finset ℕ) (ordering : List ℕ) (cs : List (Finset ℕ))
    (hne : ∀ c ∈ cs, c ≠ ∅)
    (h : ¬(ordering.Nodup ∧ ordering.toFinset = ground)) :
    orlikTeraoInit ground ordering cs = Except.error OTError.invalidOrdering ∨
      ∃ x, orlikTeraoInit ground ordering cs = Except.error (OTError.keyError x) := by
  cases hb : buildIndex ordering cs with
  | error e =>
    obtain ⟨x, hx⟩ := buildIndexGo_error ordering cs hne [] e hb
    refine Or.inr ⟨x, ?_⟩
    unfold orlikTeraoInit
    rw [hb, hx]
  | ok idx =>
    refine Or.inl ?_
    unfold orlikTeraoInit
    rw [hb]
    show (if ordering.Nodup ∧ ordering.toFinset = ground then Except.ok idx
      else Except.error OTError.invalidOrdering) = Except.error OTError.invalidOrdering
    exact if_neg h

theorem otC7_witness :
    (∀ c ∈ [({0, 1} : Finset ℕ)], c ≠ ∅) ∧
      ¬(([0] : List ℕ).Nodup ∧ ([0] : List ℕ).toFinset = ({0, 1} : Finset ℕ)) ∧
      (orlikTeraoInit {0, 1} [0] [{0, 1}] = Except.error OTError.invalidOrdering ∨
        ∃ x, orlikTeraoInit {0, 1} [0] [{0, 1}] = Except.error (OTError.keyError x)) :=
  ⟨by decide, by decide, otC7 {0, 1} [0] [{0, 1}] (by decide) (by decide)⟩

/-- C7 fails as stated: for the matroid on ground set `{0, 1}` with
circuit `{0, 1}` and the supplied ordering `[0]` (not a permutation of the
ground set, since `1` is missing), `__init__` raises `KeyError: 1` while
sorting the circuit — before the ordering validation can raise the
`InvalidOrdering` error — so the failure is not an `InvalidOrdering`
error, although construction does fail and no algebra object is made. -/
theorem otC7_counterexample :
    orlikTeraoInit {0, 1} [0] [{0, 1}] = Except.error (OTError.keyError 1) ∧
      OTError.keyError 1 ≠ OTError.invalidOrdering :=
  ⟨by with_unfolding_all rfl, by decide⟩

/-- C10: if `x` is a loop of the matroid (`{x}` is a circuit) then, once
the broken-circuit dictionary is built, the empty set is a recorded
broken-circuit key, `subset_image({x})` is the zero element, and hence
the algebra generator at `x` is zero (for any chi and rank function and
whichever broken-circuit entry the scan meets first). -/
theorem otC10 (ground : Finset ℕ) (ordering : List ℕ) (cs : List (Finset ℕ))
    (chi : Finset ℕ → ℚ) (sorting : ℕ → ℕ) (idx : List (Finset ℕ × ℕ)) (x : ℕ)
    (hbuild : buildIndex ordering cs = Except.ok idx)
    (hloop : ({x} : Finset ℕ) ∈ cs)
    (hanti : ∀ c₁ ∈ cs, ∀ c₂ ∈ cs, c₁ ⊆ c₂ → c₁ = c₂) :
    ((∅ : Finset ℕ) ∈ idx.map Prod.fst) ∧
      subsetImage ⟨ground, idx, chi, sorting⟩ {x} = 0 ∧
      algebraGenerators ⟨ground, idx, chi, sorting⟩ x = 0 := by
  have hkey : (∅ : Finset ℕ) ∈ idx.map Prod.fst :=
    buildIndexGo_emptykey ordering x cs [] idx hbuild hloop
  have hfind : ∃ q, idx.find? (fun p => decide (p.1 ⊆ ({x} : Finset ℕ))) = some q := by
    cases hf : idx.find? (fun p => decide (p.1 ⊆ ({x} : Finset ℕ))) with
    | some q => exact ⟨q, rfl⟩
    | none =>
      exfalso
      obtain ⟨q, hq, hq1⟩ := List.mem_map.mp hkey
      have hnone := List.find?_eq_none.mp hf q hq
      simp only [decide_eq_true_eq] at hnone
      exact hnone (hq1 ▸ Finset.empty_subset ({x} : Finset ℕ))
  obtain ⟨q, hq⟩ := hfind
  have hqmem : q ∈ idx := List.mem_of_find?_eq_some hq
  have hqsub : q.1 ⊆ ({x} : Finset ℕ) := by
    have h' := List.find?_some hq
    simpa using h'
  have hq1 : q.1 = ∅ := by
    rcases Finset.subset_singleton_iff.mp hqsub with h' | h'
    · exact h'
    · exfalso
      rcases buildIndexGo_mem ordering cs [] idx hbuild q hqmem with hacc | hfrom
      · cases hacc
      · obtain ⟨c, hc, i, t, hsort, hq'⟩ := hfrom
        have ht : t.toFinset = ({x} : Finset ℕ) := by
          rw [hq'] at h'
          exact h'
        have hxt : x ∈ t := by
          rw [← List.mem_toFinset, ht]
          exact Finset.mem_singleton_self x
        have hxc : x ∈ c :=
          (sortCircuit_ok_mem ordering c (i :: t) hsort x).mp
            (List.mem_cons_of_mem _ hxt)
        have hcx : ({x} : Finset ℕ) = c :=
          hanti {x} hloop c hc (Finset.singleton_subset_iff.mpr hxc)
        rw [← hcx] at hsort
        have hL : i :: t = [x] := sortCircuit_ok_singleton ordering x (i :: t) hsort
        injection hL with h1 h2
        rw [h2] at ht
        exact (Finset.singleton_ne_empty x) ht.symm
  have hzero : subsetImage ⟨ground, idx, chi, sorting⟩ {x} = 0 := by
    obtain ⟨q1, q2⟩ := q
    simp only at hq1
    subst hq1
    by_cases hx2 : q2 ∈ ({x} : Finset ℕ)
    · show (subsetImageF ⟨ground, idx, chi, sorting⟩
        (otMeasure ⟨ground, idx, chi, sorting⟩ {x} + 1) {x}).getD 0 = 0
      rw [subsetImageF_succ_zero ⟨ground, idx, chi, sorting⟩ _ {x} ∅ q2 hq hx2]
      rfl
    · show (subsetImageF ⟨ground, idx, chi, sorting⟩
        (otMeasure ⟨ground, idx, chi, sorting⟩ {x} + 1) {x}).getD 0 = 0
      rw [subsetImageF_succ_rw ⟨ground, idx, chi, sorting⟩ _ {x} ∅ q2 hq hx2]
      rfl
  exact ⟨hkey, hzero, hzero⟩

theorem otC10_witness :
    buildIndex [0, 1] [{0}] = Except.ok [(∅, 0)] ∧
      ({0} : Finset ℕ) ∈ [({0} : Finset ℕ)] ∧
      (((∅ : Finset ℕ) ∈ ([((∅ : Finset ℕ), 0)]).map Prod.fst) ∧
        subsetImage ⟨{0, 1}, [(∅, 0)], fun _ => 1, rankOf [0, 1]⟩ {0} = 0 ∧
        algebraGenerators ⟨{0, 1}, [(∅, 0)], fun _ => 1, rankOf [0, 1]⟩ 0 = 0) :=
  ⟨by with_unfolding_all rfl, by decide,
    otC10 {0, 1} [0, 1] [{0}] (fun _ => 1) (rankOf [0, 1]) [(∅, 0)] 0
      (by with_unfolding_all rfl) (by decide) (by decide)⟩

/-- C8: calling `subset_image` with anything that is not a frozenset
raises `ValueError("S needs to be a frozenset")` — the spec's
`InvalidInput` — before any computation, the error is surfaced to the
caller, and no memo-table entry is committed (the memo is unchanged). -/
theorem otC8 (A : OTAlgebra) (memo : List (Finset ℕ × El)) (v : PyVal)
    (h : ∀ S, v ≠ PyVal.fset S) :
    subsetImageMemo A memo v =
      (Except.error (OTError.valueError "S needs to be a frozenset"), memo) := by
  cases v with
  | fset S => exact absurd rfl (h S)
  | pylist l => rfl
  | pyset l => rfl

theorem otC8_witness :
    subsetImageMemo exAlg [] (PyVal.pylist [1, 2]) =
      (Except.error (OTError.valueError "S needs to be a frozenset"), []) :=
  otC8 exAlg [] (PyVal.pylist [1, 2]) (fun S h => PyVal.noConfusion h)
